import Mathlib

/-!
# Verification of the MCTS move-selection engine of `agent.h`

Shallow embedding of the Monte Carlo Tree Search player (`MCTS_player` and
its collaborators in `agent.h`) together with proofs of the specified
properties.  The board representation (`board.h`) and the move encoding
(`action.h`) are not among the analysed sources; they are modelled
abstractly from the specification's contracts for the Board Adapter, the
Move Generator and the Rollout Policy (structure `Game` below).

Floating point score arithmetic (`float` win rates and the
`sqrt`/`log` UCT bonus) is modelled in exact real arithmetic.
-/

set_option autoImplicit false

namespace NoGoMCTS

/-- Modelled from the spec: the external Board Adapter, Move Generator and
Rollout Policy (`board.h` / `action.h` are not part of the analysed
sources).  `apply m b` returns `some b'` when placing move `m` on board `b`
is legal (the mutated copy of the board), and `none` when the move is
illegal.  `bnd` is a termination measure: every legal move strictly
decreases it (games are finite, so a rollout always ends, as the spec's
"game over under this ruleset" requires).  `blackPolicy s k b` /
`whitePolicy s k b` model `random_player::take_action` for an agent of that
colour constructed with seed option `s` (`none` = default-constructed
engine): `k` is the number of earlier calls made to that same agent
instance (its engine advances deterministically with each shuffle), and the
result is the move the agent returns, `none` standing for the no-op
`action()` returned when no legal move exists. -/
structure Game : Type 1 where
  B : Type
  M : Type
  apply : M → B → Option B
  bnd : B → ℕ
  bnd_lt : ∀ (m : M) (b b' : B), apply m b = some b' → bnd b' < bnd b
  blackPolicy : Option String → ℕ → B → Option M
  whitePolicy : Option String → ℕ → B → Option M

/-- `board::piece_type` restricted to the two values a successfully
constructed `random_player` can hold (`who`): the constructor throws
unless the role is black or white. -/
inductive Piece : Type where
  | black : Piece
  | white : Piece
deriving DecidableEq

/-- The fields of `MCTS_player` relevant to a move request: its colour
`who`, and the seed option parsed from its construction arguments (the
model of its inherited `std::default_random_engine engine`; `none` means
the engine was never seeded, i.e. stays default-constructed). -/
structure Player (G : Game) : Type where
  who : Piece
  seed : Option String

/-- Split a character list at every space. -/
def splitSp : List Char → List (List Char)
  | [] => [[]]
  | c :: rest =>
    if c = ' ' then [] :: splitSp rest
    else
      match splitSp rest with
      | [] => [[c]]
      | t :: ts => (c :: t) :: ts

/-- The whitespace tokenisation performed by `std::stringstream` extraction
in `agent::agent`: maximal space-free runs, empty tokens dropped (the
configuration strings involved use only spaces). -/
def tokensOf (s : String) : List String :=
  ((splitSp s.toList).map (fun cs => String.mk cs)).filter (fun t => t ≠ "")

/-- One `key=value` token, split at the first `=` as in `agent::agent`
(`substr(0, find('='))` / `substr(find('=') + 1)`); for a token without
`=`, `find` yields `npos` and `npos + 1` wraps to `0`, so both key and
value are the whole token. -/
def parsePair (t : String) : String × String :=
  let cs := t.toList
  let k := cs.takeWhile (fun c => c ≠ '=')
  match cs.dropWhile (fun c => c ≠ '=') with
  | [] => (String.mk k, String.mk cs)
  | _ :: v => (String.mk k, String.mk v)

/-- `meta[key] = { value }` on a `std::map`: overwrite the binding if the
key is present, otherwise add it (association-list model). -/
def setKV : List (String × String) → String → String → List (String × String)
  | [], k, v => [(k, v)]
  | (k', v') :: rest, k, v =>
    if k' = k then (k, v) :: rest else (k', v') :: setKV rest k v

/-- Lookup in the association-list model of `meta`. -/
def lookupKV : List (String × String) → String → Option String
  | [], _ => none
  | (k, v) :: rest, q => if k = q then some v else lookupKV rest q

/-- The `meta` map built by `agent::agent(args)`: parse
`"name=unknown role=unknown " + args` token by token. -/
def metaOf (args : String) : List (String × String) :=
  (tokensOf ("name=unknown role=unknown " ++ args)).foldl
    (fun m t => setKV m (parsePair t).1 (parsePair t).2) []

/-- The engine state of a `random_player` built from `args`: seeded with
the `seed` entry when present, default-constructed otherwise
(`random_player::random_player`). -/
def engineOf (args : String) : Option String :=
  lookupKV (metaOf args) "seed"

/-- The constructor string of the black rollout agent in
`MCTS_player::oneSim` (note the double space, as in the source). -/
def blackArgs : String := "name=black  role=black"

/-- The constructor string of the white rollout agent in
`MCTS_player::oneSim`. -/
def whiteArgs : String := "name=white  role=white"

/-- The move function of the `myself` rollout agent constructed in
`oneSim`: a fresh `random_player` of the searching player's colour. -/
def myPolicy (G : Game) (p : Player G) : ℕ → G.B → Option G.M :=
  match p.who with
  | Piece.black => G.blackPolicy (engineOf blackArgs)
  | Piece.white => G.whitePolicy (engineOf whiteArgs)

/-- The move function of the `opponent` rollout agent constructed in
`oneSim`: a fresh `random_player` of the other colour. -/
def oppPolicy (G : Game) (p : Player G) : ℕ → G.B → Option G.M :=
  match p.who with
  | Piece.black => G.whitePolicy (engineOf whiteArgs)
  | Piece.white => G.blackPolicy (engineOf blackArgs)

/-- `MCTS_player::Node`.  The `parent` pointer is represented implicitly:
a node is addressed by its path of child indices from the root, and
`backPropagation`'s walk along `parent` links becomes an update along such
a path (`updatePath` below), which touches exactly the same set of nodes.
`move` is `none` exactly when the field keeps its default-constructed
`action::place` value, which is the case precisely for the root. -/
inductive Node (G : Game) : Type where
  | mk (visit : ℕ) (win : ℕ) (b : G.B) (move : Option G.M)
      (child : List (Node G)) : Node G

variable {G : Game}

/-- Field `visit` of a node. -/
def Node.visit : Node G → ℕ
  | .mk v _ _ _ _ => v

/-- Field `win` of a node. -/
def Node.win : Node G → ℕ
  | .mk _ w _ _ _ => w

/-- Field `b` (the board snapshot) of a node. -/
def Node.b : Node G → G.B
  | .mk _ _ b _ _ => b

/-- Field `move` (the originating move) of a node. -/
def Node.move : Node G → Option G.M
  | .mk _ _ _ mv _ => mv

/-- Field `child` of a node. -/
def Node.child : Node G → List (Node G)
  | .mk _ _ _ _ cs => cs

/-- `MCTS_player::expansion` applied to board `b`, where `order` is the
agent's candidate array `space` in the order left by `std::shuffle`: one
child per legal candidate, in scan order, each created with zero counts,
the originating move, the board after the move, and no children. -/
def expansion (G : Game) (order : List G.M) (b : G.B) : List (Node G) :=
  order.filterMap (fun m =>
    (G.apply m b).map (fun after => Node.mk 0 0 after (some m) []))

/-- Apply `f` to the element at index `i` of a list (identity when the
index is out of range). -/
def updateAt {α : Type} : ℕ → (α → α) → List α → List α
  | _, _, [] => []
  | 0, f, a :: as => f a :: as
  | n + 1, f, a :: as => a :: updateAt n f as

/-- `MCTS_player::backPropagation(current, win)` walks the `parent` chain
from the selected node up to the root, adding `1` to `visit` and the `int`
`win` (here `0` or `1`) to `win` at every node on the walk.  With parent
pointers modelled as paths from the root, the walked set of nodes is
exactly the set of positions along `path`, updated top-down. -/
def updatePath (w : ℕ) : List ℕ → Node G → Node G
  | [], Node.mk v wi b mv cs => Node.mk (v + 1) (wi + w) b mv cs
  | i :: p, Node.mk v wi b mv cs =>
    Node.mk (v + 1) (wi + w) b mv (updateAt i (fun c => updatePath w p c) cs)

/-- Follow a path of child indices down a tree (total: an out-of-range
index stops the walk; this never happens on the paths produced by
`selection` on reachable trees). -/
def nodeAt : Node G → List ℕ → Node G
  | n, [] => n
  | n, i :: p =>
    match (Node.child n)[i]? with
    | some c => nodeAt c p
    | none => n

/-- A path is valid when every index is in range for the child list it
indexes. -/
def validPath : Node G → List ℕ → Bool
  | _, [] => true
  | n, i :: p =>
    match (Node.child n)[i]? with
    | some c => validPath c p
    | none => false

/-- The UCT value computed in `MCTS_player::selection` for child `c` of a
node with visit count `rv`:
`(float)win / visit + sqrt(2 * log(parent.visit) / visit)`,
modelled in exact real arithmetic. -/
noncomputable def uctValue (rv : ℕ) (c : Node G) : ℝ :=
  (Node.win c : ℝ) / (Node.visit c : ℝ) +
    Real.sqrt (2 * Real.log (rv : ℝ) / (Node.visit c : ℝ))

/-- The `for` loop of `MCTS_player::selection`: scan the children left to
right (absolute index `i`), carrying the best index `best` and best value
`bv` (initially `nullptr` alias `none`, and `-99999.0f`).  An unvisited
child aborts the scan with `Sum.inl` (the source returns it at once);
otherwise a strictly better value replaces the best, and the final best is
returned as `Sum.inr`. -/
noncomputable def selLoop (rv : ℕ) :
    List (Node G) → ℕ → Option ℕ → ℝ → ℕ ⊕ Option ℕ
  | [], _, best, _ => Sum.inr best
  | c :: rest, i, best, bv =>
    if Node.visit c = 0 then Sum.inl i
    else if bv < uctValue rv c then
      selLoop rv rest (i + 1) (some i) (uctValue rv c)
    else selLoop rv rest (i + 1) best bv

/-- `MCTS_player::selection`, returning the path of child indices from the
argument node down to the selected node.  An empty child list selects the
node itself; an unvisited child is selected immediately; otherwise the
search recurses into the best child (`return selection(bestNode)`).  The
cases `Sum.inr none` (a null `bestNode`, undefined behaviour in the
source) and an out-of-range best index cannot occur (the best value always
beats `-99999` in exact arithmetic); the model returns a stub there. -/
noncomputable def selection : Node G → List ℕ
  | Node.mk _v _w _b _mv [] => []
  | Node.mk v _w _b _mv (c1 :: rest) =>
    match selLoop v (c1 :: rest) 0 none (-99999 : ℝ) with
    | Sum.inl i => [i]
    | Sum.inr none => []
    | Sum.inr (some i) =>
      match h : (c1 :: rest)[i]? with
      | none => [i]
      | some c => i :: selection c
termination_by n => sizeOf n
decreasing_by
  obtain ⟨hlt, he⟩ := List.getElem?_eq_some.mp h
  have hs := List.sizeOf_lt_of_mem (he ▸ List.getElem_mem hlt)
  simp only [Node.mk.sizeOf_spec, List.cons.sizeOf_spec] at hs ⊢
  omega

/-- The `while(true)` loop of `MCTS_player::oneSim`: `MYTURN` starts
`false` (the opponent moves first); the mover's agent is asked for a move
(its `kMy`-th respectively `kOpp`-th call), an illegal or no-op answer
ends the game and the loop returns `!MYTURN`; otherwise the board advances
and the turn flips. -/
def oneSimAux (G : Game) (fmy fopp : ℕ → G.B → Option G.M)
    (kMy kOpp : ℕ) (MYTURN : Bool) (state : G.B) : Bool :=
  match h : (if MYTURN then fmy kMy state else fopp kOpp state).bind
      (fun m => G.apply m state) with
  | none => !MYTURN
  | some s' =>
    oneSimAux G fmy fopp (if MYTURN then kMy + 1 else kMy)
      (if MYTURN then kOpp else kOpp + 1) (!MYTURN) s'
termination_by G.bnd state
decreasing_by
  obtain ⟨m, _, ha⟩ := Option.bind_eq_some.mp h
  exact G.bnd_lt m state s' ha

/-- `MCTS_player::oneSim`: build the two fresh rollout agents (constructor
strings `blackArgs` / `whiteArgs`, hence never seeded), then run the
alternation loop from the node's board with the opponent moving first. -/
def oneSim (G : Game) (p : Player G) (node : Node G) : Bool :=
  oneSimAux G (myPolicy G p) (oppPolicy G p) 0 0 false (Node.b node)

/-- One iteration of the `for` loop in `MCTS_player::Simulation`: select a
node, run one rollout from it, backpropagate the outcome (`1` for a win,
`0` otherwise) along the path. -/
noncomputable def simStep (G : Game) (p : Player G) (root : Node G) : Node G :=
  let path := selection root
  let win := if oneSim G p (nodeAt root path) then 1 else 0
  updatePath win path root

/-- The iteration loop of `MCTS_player::Simulation`, run for `k` more
iterations from tree `root`. -/
noncomputable def simLoop (G : Game) (p : Player G) : ℕ → Node G → Node G
  | 0, root => root
  | k + 1, root => simLoop G p k (simStep G p root)

/-- `sim_counts`, set to `100` in the `MCTS_player` constructor. -/
def sim_counts : ℕ := 100

/-- The win rate `(float)win / visit` of a node, modelled in exact real
arithmetic. -/
noncomputable def winRate (c : Node G) : ℝ :=
  (Node.win c : ℝ) / (Node.visit c : ℝ)

/-- The decision `for` loop at the end of `MCTS_player::Simulation`:
children with `visit == 0` are skipped (`continue`); a strictly better
win rate replaces the best rate and best move. -/
noncomputable def decisionLoop : List (Node G) → ℝ → Option G.M → Option G.M
  | [], _, best => best
  | c :: rest, bv, best =>
    if Node.visit c = 0 then decisionLoop rest bv best
    else if bv < winRate c then decisionLoop rest (winRate c) (Node.move c)
    else decisionLoop rest bv best

/-- The root node built at the start of `MCTS_player::Simulation`: the
input state, zero counts, a default-constructed move, and the children
produced by the immediate `expansion(root)` call. -/
def root0 (G : Game) (order : List G.M) (state : G.B) : Node G :=
  Node.mk 0 0 state none (expansion G order state)

/-- `MCTS_player::Simulation`: build the root from the input state, expand
it, return the no-op `action()` (modelled `none`) if it has no children;
otherwise run `sim_counts` iterations and extract the best move, with the
best rate and best move initialised from `root->child[0]` of the final
tree.  The inner `[]` case is unreachable (the loop preserves the child
list length) and mirrors the unchecked `child[0]` indexing. -/
noncomputable def Simulation (G : Game) (p : Player G) (order : List G.M)
    (state : G.B) : Option G.M :=
  let root := root0 G order state
  if (Node.child root).isEmpty then none
  else
    match Node.child (simLoop G p sim_counts root) with
    | [] => none
    | c0 :: rest =>
      decisionLoop (c0 :: rest) (winRate c0) (Node.move c0)

/-- `MCTS_player::take_action(state)`, which returns `Simulation(state)`;
`order` is the content of the member array `space` after the shuffle
performed by `expansion` (an arbitrary permutation of the candidate
placements of the searching player's colour). -/
noncomputable def take_action (G : Game) (p : Player G) (order : List G.M)
    (state : G.B) : Option G.M :=
  Simulation G p order state

/-- Instrumentation of the `selLoop` control flow: the divisors of the two
divisions evaluated for each scored child (`win / visit` and
`2 * log(parent.visit) / visit`), in evaluation order; the scan stops
where the loop returns early on an unvisited child, exactly as the source
loop does before computing any value for it. -/
def selLoopDivs : List (Node G) → List ℕ
  | [] => []
  | c :: rest =>
    if Node.visit c = 0 then []
    else Node.visit c :: Node.visit c :: selLoopDivs rest

/-- Instrumentation of `selection`: every division divisor it evaluates,
including those of the recursive call on the best child. -/
noncomputable def selectionDivs : Node G → List ℕ
  | Node.mk _v _w _b _mv [] => []
  | Node.mk v _w _b _mv (c1 :: rest) =>
    selLoopDivs (c1 :: rest) ++
      match selLoop v (c1 :: rest) 0 none (-99999 : ℝ) with
      | Sum.inl _ => []
      | Sum.inr none => []
      | Sum.inr (some i) =>
        match h : (c1 :: rest)[i]? with
        | none => []
        | some c => selectionDivs c
termination_by n => sizeOf n
decreasing_by
  obtain ⟨hlt, he⟩ := List.getElem?_eq_some.mp h
  have hs := List.sizeOf_lt_of_mem (he ▸ List.getElem_mem hlt)
  simp only [Node.mk.sizeOf_spec, List.cons.sizeOf_spec] at hs ⊢
  omega

/-- Instrumentation of the decision step of `Simulation`: the divisor of
the initial `child[0]` win-rate division, followed by the divisor of the
win-rate division of every child the loop does not skip. -/
def decisionDivs (root : Node G) : List ℕ :=
  match Node.child root with
  | [] => []
  | c0 :: _ =>
    Node.visit c0 ::
      (Node.child root).filterMap (fun c =>
        if Node.visit c = 0 then none else some (Node.visit c))

/-- Instrumentation of the iteration loop: the divisors evaluated by the
`selection` call of each iteration, in order. -/
noncomputable def simLoopDivs (G : Game) (p : Player G) :
    ℕ → Node G → List ℕ
  | 0, _ => []
  | k + 1, root => selectionDivs root ++ simLoopDivs G p k (simStep G p root)

/-- Every division divisor evaluated during `take_action`: those of the
`sim_counts` selection calls, then those of the decision step. -/
noncomputable def SimulationDivs (G : Game) (p : Player G) (order : List G.M)
    (state : G.B) : List ℕ :=
  let root := root0 G order state
  if (Node.child root).isEmpty then []
  else
    simLoopDivs G p sim_counts root ++
      decisionDivs (simLoop G p sim_counts root)

/-- A small concrete game used to exercise the definitions: a board is a
natural number (the count of remaining moves), move `m` is legal on `b`
iff `m < b`, and a legal move leads to `b - 1`.  The rollout policies play
move `0` whenever the board is nonempty. -/
abbrev toyGame : Game where
  B := ℕ
  M := ℕ
  apply := fun m b => if m < b then some (b - 1) else none
  bnd := fun b => b
  bnd_lt := by
    intro m b b' h
    by_cases hm : m < b
    · simp only [hm, if_pos, Option.some.injEq] at h
      show b' < b
      omega
    · simp [hm] at h
  blackPolicy := fun _ _ b => if 0 < b then some 0 else none
  whitePolicy := fun _ _ b => if 0 < b then some 0 else none

/-- A toy MCTS player (black, unseeded). -/
def toyPlayer : Player toyGame := ⟨Piece.black, none⟩

/-- A second toy MCTS player (black, seeded) for the seed-independence
statements. -/
def toyPlayerSeeded : Player toyGame := ⟨Piece.black, some "7"⟩

/-! ### Basic lemmas about the node accessors -/

@[simp]
theorem Node.visit_mk (v w : ℕ) (b : G.B) (mv : Option G.M)
    (cs : List (Node G)) : Node.visit (Node.mk v w b mv cs) = v := rfl

@[simp]
theorem Node.win_mk (v w : ℕ) (b : G.B) (mv : Option G.M)
    (cs : List (Node G)) : Node.win (Node.mk v w b mv cs) = w := rfl

@[simp]
theorem Node.b_mk (v w : ℕ) (b : G.B) (mv : Option G.M)
    (cs : List (Node G)) : Node.b (Node.mk v w b mv cs) = b := rfl

@[simp]
theorem Node.move_mk (v w : ℕ) (b : G.B) (mv : Option G.M)
    (cs : List (Node G)) : Node.move (Node.mk v w b mv cs) = mv := rfl

@[simp]
theorem Node.child_mk (v w : ℕ) (b : G.B) (mv : Option G.M)
    (cs : List (Node G)) : Node.child (Node.mk v w b mv cs) = cs := rfl

/-! ### Lemmas about `updateAt` -/

@[simp]
theorem length_updateAt {α : Type} (i : ℕ) (f : α → α) (l : List α) :
    (updateAt i f l).length = l.length := by
  induction l generalizing i with
  | nil => cases i <;> rfl
  | cons a as ih =>
    cases i with
    | zero => simp [updateAt]
    | succ n => simp [updateAt, ih]

theorem getElem?_updateAt {α : Type} (i : ℕ) (f : α → α) (l : List α)
    (j : ℕ) :
    (updateAt i f l)[j]? = if i = j then (l[j]?).map f else l[j]? := by
  induction l generalizing i j with
  | nil => simp [updateAt]
  | cons a as ih =>
    cases i with
    | zero =>
      cases j with
      | zero => simp [updateAt]
      | succ m => simp [updateAt]
    | succ n =>
      cases j with
      | zero => simp [updateAt]
      | succ m =>
        simp only [updateAt, List.getElem?_cons_succ, ih]
        by_cases h : n = m <;> simp [h]

theorem mem_updateAt {α : Type} {i : ℕ} {f : α → α} {l : List α} {c : α}
    (h : c ∈ updateAt i f l) : c ∈ l ∨ ∃ a ∈ l, c = f a := by
  induction l generalizing i with
  | nil => simp [updateAt] at h
  | cons a as ih =>
    cases i with
    | zero =>
      rcases List.mem_cons.mp h with h1 | h1
      · exact Or.inr ⟨a, List.mem_cons_self a as, h1⟩
      · exact Or.inl (List.mem_cons_of_mem a h1)
    | succ n =>
      rcases List.mem_cons.mp h with h1 | h1
      · exact Or.inl (h1 ▸ List.mem_cons_self a as)
      · rcases ih h1 with h2 | ⟨a', ha', he⟩
        · exact Or.inl (List.mem_cons_of_mem a h2)
        · exact Or.inr ⟨a', List.mem_cons_of_mem a ha', he⟩

/-! ### Lemmas about `updatePath` -/

@[simp]
theorem updatePath_visit (w : ℕ) (p : List ℕ) (n : Node G) :
    Node.visit (updatePath w p n) = Node.visit n + 1 := by
  cases n with
  | mk v wi b mv cs => cases p <;> simp [updatePath]

@[simp]
theorem updatePath_win (w : ℕ) (p : List ℕ) (n : Node G) :
    Node.win (updatePath w p n) = Node.win n + w := by
  cases n with
  | mk v wi b mv cs => cases p <;> simp [updatePath]

@[simp]
theorem updatePath_b (w : ℕ) (p : List ℕ) (n : Node G) :
    Node.b (updatePath w p n) = Node.b n := by
  cases n with
  | mk v wi b mv cs => cases p <;> simp [updatePath]

@[simp]
theorem updatePath_move (w : ℕ) (p : List ℕ) (n : Node G) :
    Node.move (updatePath w p n) = Node.move n := by
  cases n with
  | mk v wi b mv cs => cases p <;> simp [updatePath]

@[simp]
theorem updatePath_child_nil (w : ℕ) (n : Node G) :
    Node.child (updatePath w [] n) = Node.child n := by
  cases n with
  | mk v wi b mv cs => simp [updatePath]

theorem updatePath_child_cons (w : ℕ) (i : ℕ) (p : List ℕ) (n : Node G) :
    Node.child (updatePath w (i :: p) n) =
      updateAt i (fun c => updatePath w p c) (Node.child n) := by
  cases n with
  | mk v wi b mv cs => simp [updatePath]

/-! ### Lemmas about `nodeAt` and `validPath` -/

@[simp]
theorem nodeAt_nil (n : Node G) : nodeAt n [] = n := rfl

theorem nodeAt_cons {n c : Node G} {i : ℕ} (p : List ℕ)
    (h : (Node.child n)[i]? = some c) : nodeAt n (i :: p) = nodeAt c p := by
  simp [nodeAt, h]

theorem validPath_cons {n : Node G} {i : ℕ} {p : List ℕ}
    (h : validPath n (i :: p) = true) :
    ∃ c, (Node.child n)[i]? = some c ∧ validPath c p = true := by
  revert h
  simp only [validPath]
  cases hc : (Node.child n)[i]? with
  | none => intro h; exact absurd h (by simp)
  | some c => intro h; exact ⟨c, rfl, h⟩

/-- The effect of `backPropagation` (modelled as `updatePath`) on every
node along the updated path: each one gets `+1` visit and `+w` wins. -/
theorem updatePath_nodeAt (w : ℕ) :
    ∀ (p : List ℕ) (n : Node G), validPath n p = true →
      ∀ k, k ≤ p.length →
        Node.visit (nodeAt (updatePath w p n) (List.take k p)) =
            Node.visit (nodeAt n (List.take k p)) + 1 ∧
          Node.win (nodeAt (updatePath w p n) (List.take k p)) =
            Node.win (nodeAt n (List.take k p)) + w := by
  intro p
  induction p with
  | nil =>
    intro n _ k hk
    have hk0 : k = 0 := by simpa using hk
    subst hk0
    simp
  | cons i p' ih =>
    intro n hv k hk
    obtain ⟨c, hc, hv'⟩ := validPath_cons hv
    cases k with
    | zero => simp
    | succ k' =>
      have hc' : (Node.child (updatePath w (i :: p') n))[i]? =
          some (updatePath w p' c) := by
        rw [updatePath_child_cons, getElem?_updateAt]
        simp [hc]
      rw [List.take_succ_cons, nodeAt_cons (List.take k' p') hc',
        nodeAt_cons (List.take k' p') hc]
      exact ih c hv' k' (by simpa using hk)

/-! ### Lemmas about `selLoop` and `selection` -/

theorem uctValue_nonneg (v : ℕ) (c : Node G) : 0 ≤ uctValue v c := by
  unfold uctValue
  have h1 : (0 : ℝ) ≤ (Node.win c : ℝ) / (Node.visit c : ℝ) := by positivity
  have h2 : 0 ≤ Real.sqrt (2 * Real.log (v : ℝ) / (Node.visit c : ℝ)) :=
    Real.sqrt_nonneg _
  linarith

/-- The UCT value of the `j`-th entry of a child list (`0` out of range). -/
noncomputable def uctAt (v : ℕ) (cs : List (Node G)) (j : ℕ) : ℝ :=
  match cs[j]? with
  | some c => uctValue v c
  | none => 0

@[simp]
theorem uctAt_cons_zero (v : ℕ) (c : Node G) (rest : List (Node G)) :
    uctAt v (c :: rest) 0 = uctValue v c := by
  simp [uctAt]

@[simp]
theorem uctAt_cons_succ (v : ℕ) (c : Node G) (rest : List (Node G)) (j : ℕ) :
    uctAt v (c :: rest) (j + 1) = uctAt v rest j := by
  simp [uctAt]

theorem uctAt_nonneg (v : ℕ) (cs : List (Node G)) (j : ℕ) :
    0 ≤ uctAt v cs j := by
  unfold uctAt
  cases cs[j]? with
  | none => simp
  | some c => simpa using uctValue_nonneg v c

/-- An unvisited child makes the selection loop return at once, with the
index of the first unvisited child (in absolute coordinates). -/
theorem selLoop_unvisited (v : ℕ) :
    ∀ (cs : List (Node G)) (i : ℕ) (best : Option ℕ) (bv : ℝ),
      (∃ c ∈ cs, Node.visit c = 0) →
      selLoop v cs i best bv =
        Sum.inl (i + cs.findIdx (fun c => Node.visit c == 0)) := by
  intro cs
  induction cs with
  | nil => intro i best bv hex; simp at hex
  | cons c rest ih =>
    intro i best bv hex
    by_cases h0 : Node.visit c = 0
    · simp [selLoop, h0, List.findIdx_cons]
    · have hex' : ∃ c' ∈ rest, Node.visit c' = 0 := by
        rcases hex with ⟨c', hc', hc0⟩
        rcases List.mem_cons.mp hc' with rfl | hmem
        · exact absurd hc0 h0
        · exact ⟨c', hmem, hc0⟩
      have harith : i + 1 + rest.findIdx (fun c => Node.visit c == 0) =
          i + (rest.findIdx (fun c => Node.visit c == 0) + 1) := by omega
      have hb : (Node.visit c == 0) = false := by simpa using h0
      by_cases hlt : bv < uctValue v c
      · rw [show selLoop v (c :: rest) i best bv =
            selLoop v rest (i + 1) (some i) (uctValue v c) by
              simp [selLoop, h0, hlt],
          ih (i + 1) (some i) (uctValue v c) hex']
        simp [List.findIdx_cons, hb, harith]
      · rw [show selLoop v (c :: rest) i best bv =
            selLoop v rest (i + 1) best bv by simp [selLoop, h0, hlt],
          ih (i + 1) best bv hex']
        simp [List.findIdx_cons, hb, harith]

/-- Characterisation of the selection loop when every child is visited:
either no child beats the running best value (the running best index is
returned), or the first index attaining the maximum value strictly above
the running best is returned. -/
theorem selLoop_char (v : ℕ) :
    ∀ (cs : List (Node G)) (i : ℕ) (best : Option ℕ) (bv : ℝ),
      (∀ c ∈ cs, Node.visit c ≠ 0) →
      (selLoop v cs i best bv = Sum.inr best ∧
        ∀ j, j < cs.length → uctAt v cs j ≤ bv) ∨
      (∃ j, j < cs.length ∧ selLoop v cs i best bv = Sum.inr (some (i + j)) ∧
        bv < uctAt v cs j ∧
        (∀ l, l < j → uctAt v cs l < uctAt v cs j) ∧
        (∀ l, l < cs.length → uctAt v cs l ≤ uctAt v cs j)) := by
  intro cs
  induction cs with
  | nil =>
    intro i best bv _
    left
    refine ⟨by simp [selLoop], ?_⟩
    intro j hj
    simp at hj
  | cons c rest ih =>
    intro i best bv hall
    have h0 : Node.visit c ≠ 0 := hall c (List.mem_cons_self c rest)
    have hall' : ∀ c' ∈ rest, Node.visit c' ≠ 0 :=
      fun c' h => hall c' (List.mem_cons_of_mem c h)
    by_cases hlt : bv < uctValue v c
    · have hstep : selLoop v (c :: rest) i best bv =
          selLoop v rest (i + 1) (some i) (uctValue v c) := by
        simp [selLoop, h0, hlt]
      rcases ih (i + 1) (some i) (uctValue v c) hall' with
        ⟨hres, hbnd⟩ | ⟨j, hj, hres, hgt, hpre, hmax⟩
      · right
        refine ⟨0, by simp, ?_, by simpa using hlt, ?_, ?_⟩
        · rw [hstep, hres]
          norm_num
        · intro l hl
          omega
        · intro l hl
          cases l with
          | zero => simp
          | succ l' =>
            have := hbnd l' (by simpa using hl)
            simpa using this
      · right
        refine ⟨j + 1, by simpa using hj, ?_, ?_, ?_, ?_⟩
        · rw [hstep, hres]
          have : i + 1 + j = i + (j + 1) := by omega
          rw [this]
        · have := lt_trans hlt hgt
          simpa using this
        · intro l hl
          cases l with
          | zero => simpa using hgt
          | succ l' => simpa using hpre l' (by omega)
        · intro l hl
          cases l with
          | zero => simpa using le_of_lt hgt
          | succ l' => simpa using hmax l' (by simpa using hl)
    · have hle : uctValue v c ≤ bv := not_lt.mp hlt
      have hstep : selLoop v (c :: rest) i best bv =
          selLoop v rest (i + 1) best bv := by
        simp [selLoop, h0, hlt]
      rcases ih (i + 1) best bv hall' with
        ⟨hres, hbnd⟩ | ⟨j, hj, hres, hgt, hpre, hmax⟩
      · left
        refine ⟨hstep.trans hres, ?_⟩
        intro j hj
        cases j with
        | zero => simpa using hle
        | succ j' => simpa using hbnd j' (by simpa using hj)
      · right
        refine ⟨j + 1, by simpa using hj, ?_, ?_, ?_, ?_⟩
        · rw [hstep, hres]
          have : i + 1 + j = i + (j + 1) := by omega
          rw [this]
        · simpa using hgt
        · intro l hl
          cases l with
          | zero =>
            have : uctValue v c ≤ bv := hle
            have h2 : bv < uctAt v rest j := hgt
            simpa using lt_of_le_of_lt this h2
          | succ l' => simpa using hpre l' (by omega)
        · intro l hl
          cases l with
          | zero => simpa using (le_of_lt (lt_of_le_of_lt hle hgt))
          | succ l' => simpa using hmax l' (by simpa using hl)

/-- A node with no children selects itself (`if(root->child.empty())`). -/
theorem selection_child_nil {n : Node G} (h : Node.child n = []) :
    selection n = [] := by
  cases n with
  | mk v w b mv cs =>
    simp only [Node.child_mk] at h
    subst h
    simp [selection]

/-- A node with an unvisited child selects the first unvisited child,
before any score comparison. -/
theorem selection_unvisited {n : Node G}
    (hex : ∃ c ∈ Node.child n, Node.visit c = 0) :
    selection n = [(Node.child n).findIdx (fun c => Node.visit c == 0)] := by
  cases n with
  | mk v w b mv cs =>
    simp only [Node.child_mk] at hex ⊢
    cases cs with
    | nil => simp at hex
    | cons c1 rest =>
      rw [selection, selLoop_unvisited v (c1 :: rest) 0 none (-99999 : ℝ) hex]
      norm_num

/-- A nonempty all-visited node descends into the first child attaining
the maximal UCT value (`return selection(bestNode)`). -/
theorem selection_allvisited {n : Node G} (hne : Node.child n ≠ [])
    (hall : ∀ c ∈ Node.child n, Node.visit c ≠ 0) :
    ∃ j c, (Node.child n)[j]? = some c ∧
      selection n = j :: selection c ∧
      (∀ l, l < j →
        uctAt (Node.visit n) (Node.child n) l <
          uctAt (Node.visit n) (Node.child n) j) ∧
      (∀ l, l < (Node.child n).length →
        uctAt (Node.visit n) (Node.child n) l ≤
          uctAt (Node.visit n) (Node.child n) j) := by
  cases n with
  | mk v w b mv cs =>
    simp only [Node.child_mk, Node.visit_mk] at hne hall ⊢
    cases cs with
    | nil => exact absurd rfl hne
    | cons c1 rest =>
      rcases selLoop_char v (c1 :: rest) 0 none (-99999 : ℝ) hall with
        ⟨_, hbnd⟩ | ⟨j, hj, hres, _, hpre, hmax⟩
      · exfalso
        have h1 := hbnd 0 (by simp)
        have h2 := uctAt_nonneg v (c1 :: rest) 0
        linarith
      · have hget : (c1 :: rest)[j]? = some ((c1 :: rest).get ⟨j, hj⟩) := by
          simp [List.getElem?_eq_getElem hj]
        have hres' : selLoop v (c1 :: rest) 0 none (-99999 : ℝ) =
            Sum.inr (some j) := by simpa using hres
        refine ⟨j, (c1 :: rest).get ⟨j, hj⟩, hget, ?_, hpre, hmax⟩
        rw [selection, hres']
        split
        · rename_i i hi
          simp at hi
        · rename_i hi
          simp at hi
        · rename_i i hi
          have hij : i = j := by simpa using hi.symm
          subst hij
          split
          · rename_i hnone
            rw [hnone] at hget
            simp at hget
          · rename_i c heq
            rw [hget] at heq
            injection heq with hc
            rw [hc]

/-! ### Characterisation of the decision loop -/

/-- The decision loop either keeps the running best (no visited child has a
strictly larger win rate), or returns the move of the first visited child
attaining the maximum win rate strictly above the running best. -/
theorem decisionLoop_char :
    ∀ (cs : List (Node G)) (bv : ℝ) (best : Option G.M),
      (decisionLoop cs bv best = best ∧
        ∀ c ∈ cs, Node.visit c ≠ 0 → winRate c ≤ bv) ∨
      (∃ (j : ℕ) (c : Node G), cs[j]? = some c ∧ Node.visit c ≠ 0 ∧
        decisionLoop cs bv best = Node.move c ∧ bv < winRate c ∧
        (∀ l, l < j → ∀ c' : Node G, cs[l]? = some c' → Node.visit c' ≠ 0 →
          winRate c' < winRate c) ∧
        (∀ c' ∈ cs, Node.visit c' ≠ 0 → winRate c' ≤ winRate c)) := by
  intro cs
  induction cs with
  | nil =>
    intro bv best
    left
    refine ⟨by simp [decisionLoop], ?_⟩
    intro c hc
    simp at hc
  | cons c rest ih =>
    intro bv best
    by_cases h0 : Node.visit c = 0
    · have hstep : decisionLoop (c :: rest) bv best = decisionLoop rest bv best := by
        simp [decisionLoop, h0]
      rcases ih bv best with ⟨hres, hbnd⟩ | ⟨j, c', hget, hv, hres, hbv, hpre, hmax⟩
      · left
        refine ⟨hstep.trans hres, ?_⟩
        intro c'' hc'' hv''
        rcases List.mem_cons.mp hc'' with rfl | hmem
        · exact absurd h0 hv''
        · exact hbnd c'' hmem hv''
      · right
        refine ⟨j + 1, c', by simpa using hget, hv, hstep.trans hres, hbv, ?_, ?_⟩
        · intro l hl c'' hget'' hv''
          cases l with
          | zero =>
            simp only [List.getElem?_cons_zero, Option.some.injEq] at hget''
            exact absurd (hget'' ▸ h0) hv''
          | succ l' => exact hpre l' (by omega) c'' (by simpa using hget'') hv''
        · intro c'' hc'' hv''
          rcases List.mem_cons.mp hc'' with rfl | hmem
          · exact absurd h0 hv''
          · exact hmax c'' hmem hv''
    · by_cases hlt : bv < winRate c
      · have hstep : decisionLoop (c :: rest) bv best =
            decisionLoop rest (winRate c) (Node.move c) := by
          simp [decisionLoop, h0, hlt]
        rcases ih (winRate c) (Node.move c) with
          ⟨hres, hbnd⟩ | ⟨j, c', hget, hv, hres, hbv, hpre, hmax⟩
        · right
          refine ⟨0, c, by simp, h0, hstep.trans hres, hlt, ?_, ?_⟩
          · intro l hl
            omega
          · intro c'' hc'' hv''
            rcases List.mem_cons.mp hc'' with rfl | hmem
            · exact le_refl _
            · exact hbnd c'' hmem hv''
        · right
          refine ⟨j + 1, c', by simpa using hget, hv, hstep.trans hres,
            lt_trans hlt hbv, ?_, ?_⟩
          · intro l hl c'' hget'' hv''
            cases l with
            | zero =>
              simp only [List.getElem?_cons_zero, Option.some.injEq] at hget''
              exact hget'' ▸ hbv
            | succ l' => exact hpre l' (by omega) c'' (by simpa using hget'') hv''
          · intro c'' hc'' hv''
            rcases List.mem_cons.mp hc'' with rfl | hmem
            · exact le_of_lt hbv
            · exact hmax c'' hmem hv''
      · have hge : winRate c ≤ bv := not_lt.mp hlt
        have hstep : decisionLoop (c :: rest) bv best = decisionLoop rest bv best := by
          simp [decisionLoop, h0, hlt]
        rcases ih bv best with ⟨hres, hbnd⟩ | ⟨j, c', hget, hv, hres, hbv, hpre, hmax⟩
        · left
          refine ⟨hstep.trans hres, ?_⟩
          intro c'' hc'' hv''
          rcases List.mem_cons.mp hc'' with rfl | hmem
          · exact hge
          · exact hbnd c'' hmem hv''
        · right
          refine ⟨j + 1, c', by simpa using hget, hv, hstep.trans hres, hbv, ?_, ?_⟩
          · intro l hl c'' hget'' hv''
            cases l with
            | zero =>
              simp only [List.getElem?_cons_zero, Option.some.injEq] at hget''
              exact hget'' ▸ (lt_of_le_of_lt hge hbv)
            | succ l' => exact hpre l' (by omega) c'' (by simpa using hget'') hv''
          · intro c'' hc'' hv''
            rcases List.mem_cons.mp hc'' with rfl | hmem
            · exact le_of_lt (lt_of_le_of_lt hge hbv)
            · exact hmax c'' hmem hv''

/-! ### Invariants of the iteration loop -/

/-- All children of the node are leaves (the shape of the tree throughout
the run: expansion is only ever invoked on the root). -/
def Flat (R : Node G) : Prop := ∀ c ∈ Node.child R, Node.child c = []

/-- Membership in the expanded child list. -/
theorem mem_expansion {order : List G.M} {b : G.B} {c : Node G}
    (h : c ∈ expansion G order b) :
    ∃ m after, m ∈ order ∧ G.apply m b = some after ∧
      c = Node.mk 0 0 after (some m) [] := by
  rcases List.mem_filterMap.mp h with ⟨m, hm, hmap⟩
  cases happ : G.apply m b with
  | none => rw [happ] at hmap; simp at hmap
  | some after =>
    rw [happ] at hmap
    simp at hmap
    exact ⟨m, after, hm, happ, hmap.symm⟩

theorem flat_root0 (order : List G.M) (state : G.B) :
    Flat (root0 G order state) := by
  intro c hc
  rcases mem_expansion hc with ⟨m, after, _, _, rfl⟩
  rfl

/-- On a flat node, `selection` returns the empty path (no children) or a
single valid child index. -/
theorem selection_flat {R : Node G} (hflat : Flat R) :
    (Node.child R = [] ∧ selection R = []) ∨
    ∃ j c, (Node.child R)[j]? = some c ∧ selection R = [j] := by
  by_cases hne : Node.child R = []
  · exact Or.inl ⟨hne, selection_child_nil hne⟩
  · right
    by_cases hex : ∃ c ∈ Node.child R, Node.visit c = 0
    · have hfind : (Node.child R).findIdx (fun c => Node.visit c == 0) <
          (Node.child R).length := by
        apply List.findIdx_lt_length_of_exists
        rcases hex with ⟨c, hc, h0⟩
        exact ⟨c, hc, by simpa using h0⟩
      refine ⟨(Node.child R).findIdx (fun c => Node.visit c == 0),
        (Node.child R).get ⟨_, hfind⟩, by simp [List.getElem?_eq_getElem hfind], ?_⟩
      exact selection_unvisited hex
    · push_neg at hex
      rcases selection_allvisited hne hex with ⟨j, c, hget, hsel, _, _⟩
      have hc : Node.child c = [] := by
        obtain ⟨hlt, he⟩ := List.getElem?_eq_some.mp hget
        exact hflat c (he ▸ List.getElem_mem hlt)
      exact ⟨j, c, hget, by rw [hsel, selection_child_nil hc]⟩

/-- What one loop iteration preserves about the root and its children:
state, move, child count, and pointwise the children's move, board and
children, with visit counts never decreasing. -/
def StepInv (R R' : Node G) : Prop :=
  Node.b R' = Node.b R ∧ Node.move R' = Node.move R ∧
  (Node.child R').length = (Node.child R).length ∧
  ∀ (l : ℕ) (c : Node G), (Node.child R)[l]? = some c →
    ∃ c' : Node G, (Node.child R')[l]? = some c' ∧
      Node.move c' = Node.move c ∧ Node.b c' = Node.b c ∧
      Node.child c' = Node.child c ∧ Node.visit c ≤ Node.visit c'

theorem stepInv_refl (R : Node G) : StepInv R R :=
  ⟨rfl, rfl, rfl, fun l c h => ⟨c, h, rfl, rfl, rfl, le_refl _⟩⟩

theorem stepInv_trans {R R' R'' : Node G} (h1 : StepInv R R')
    (h2 : StepInv R' R'') : StepInv R R'' := by
  obtain ⟨hb1, hm1, hl1, hc1⟩ := h1
  obtain ⟨hb2, hm2, hl2, hc2⟩ := h2
  refine ⟨hb2.trans hb1, hm2.trans hm1, hl2.trans hl1, ?_⟩
  intro l c h
  obtain ⟨c', h', hm', hb', hch', hv'⟩ := hc1 l c h
  obtain ⟨c'', h'', hm'', hb'', hch'', hv''⟩ := hc2 l c' h'
  exact ⟨c'', h'', hm''.trans hm', hb''.trans hb', hch''.trans hch',
    le_trans hv' hv''⟩

theorem updatePath_stepInv (w : ℕ) (R : Node G) :
    StepInv R (updatePath w [] R) ∧
    ∀ j, StepInv R (updatePath w [j] R) := by
  constructor
  · cases R with
    | mk v wi b mv cs =>
      exact ⟨rfl, rfl, by simp [updatePath], fun l c h =>
        ⟨c, by simpa [updatePath] using h, rfl, rfl, rfl, le_refl _⟩⟩
  · intro j
    cases R with
    | mk v wi b mv cs =>
      refine ⟨rfl, rfl, by simp [updatePath], ?_⟩
      intro l c h
      by_cases hj : j = l
      · subst hj
        refine ⟨updatePath w [] c, ?_, by simp, by simp, by simp, by simp⟩
        simp only [updatePath, Node.child_mk, getElem?_updateAt, if_pos rfl]
        simp only [Node.child_mk] at h
        rw [h]
        rfl
      · refine ⟨c, ?_, rfl, rfl, rfl, le_refl _⟩
        simp only [updatePath, Node.child_mk, getElem?_updateAt, if_neg hj]
        simpa using h

theorem simStep_stepInv {p : Player G} {R : Node G} (hflat : Flat R) :
    StepInv R (simStep G p R) := by
  unfold simStep
  rcases selection_flat hflat with ⟨_, hsel⟩ | ⟨j, c, _, hsel⟩
  · rw [hsel]
    exact (updatePath_stepInv _ R).1
  · rw [hsel]
    exact (updatePath_stepInv _ R).2 j

theorem simStep_flat {p : Player G} {R : Node G} (hflat : Flat R) :
    Flat (simStep G p R) := by
  intro c hc
  obtain ⟨_, _, hlen, hch⟩ := simStep_stepInv (p := p) hflat
  rcases List.mem_iff_getElem?.mp hc with ⟨l, hl⟩
  have hllen : l < (Node.child (simStep G p R)).length :=
    (List.getElem?_eq_some.mp hl).1
  have hllen' : l < (Node.child R).length := by omega
  obtain ⟨c', hc', _, _, hch', _⟩ :=
    hch l ((Node.child R).get ⟨l, hllen'⟩) (by simp [List.getElem?_eq_getElem hllen'])
  rw [hl] at hc'
  injection hc' with hcc
  rw [← hcc] at hch'
  rw [hch']
  exact hflat _ (List.getElem_mem hllen')

theorem simStep_visit (p : Player G) (R : Node G) :
    Node.visit (simStep G p R) = Node.visit R + 1 := by
  unfold simStep
  simp

theorem simLoop_flat (p : Player G) (k : ℕ) :
    ∀ R : Node G, Flat R → Flat (simLoop G p k R) := by
  induction k with
  | zero => intro R h; exact h
  | succ k' ih => intro R h; exact ih (simStep G p R) (simStep_flat h)

theorem simLoop_stepInv (p : Player G) (k : ℕ) :
    ∀ R : Node G, Flat R → StepInv R (simLoop G p k R) := by
  induction k with
  | zero => intro R _; exact stepInv_refl R
  | succ k' ih =>
    intro R h
    exact stepInv_trans (simStep_stepInv h) (ih (simStep G p R) (simStep_flat h))

theorem simLoop_visit (p : Player G) (k : ℕ) :
    ∀ R : Node G, Node.visit (simLoop G p k R) = Node.visit R + k := by
  induction k with
  | zero => intro R; rfl
  | succ k' ih =>
    intro R
    show Node.visit (simLoop G p k' (simStep G p R)) = Node.visit R + (k' + 1)
    rw [ih (simStep G p R), simStep_visit]
    omega

/-- On a freshly expanded root (all children unvisited), the first
iteration selects child `0`. -/
theorem selection_all_zero {R : Node G} (hne : Node.child R ≠ [])
    (hzero : ∀ c ∈ Node.child R, Node.visit c = 0) : selection R = [0] := by
  cases hch : Node.child R with
  | nil => exact absurd hch hne
  | cons c rest =>
    have hmem : c ∈ Node.child R := by
      rw [hch]
      exact List.mem_cons_self c rest
    have h0 : Node.visit c = 0 := hzero c hmem
    rw [selection_unvisited ⟨c, hmem, h0⟩, hch]
    simp [List.findIdx_cons, h0]

/-- Every child produced by expansion starts with zero counts. -/
theorem expansion_counts {order : List G.M} {b : G.B} {c : Node G}
    (h : c ∈ expansion G order b) : Node.visit c = 0 ∧ Node.win c = 0 := by
  rcases mem_expansion h with ⟨m, after, _, _, rfl⟩
  exact ⟨rfl, rfl⟩

/-- After at least one iteration from the freshly expanded root, child `0`
has been visited: the first iteration selects it (all children unvisited),
and visit counts never decrease afterwards. -/
theorem simLoop_child0_pos (p : Player G) (order : List G.M) (state : G.B)
    (hne : Node.child (root0 G order state) ≠ []) (k : ℕ) (hk : 0 < k) :
    ∃ c : Node G,
      (Node.child (simLoop G p k (root0 G order state)))[0]? = some c ∧
        0 < Node.visit c := by
  obtain ⟨k', rfl⟩ : ∃ k', k = k' + 1 := ⟨k - 1, by omega⟩
  have hflat := flat_root0 (G := G) order state
  have hzero : ∀ c ∈ Node.child (root0 G order state), Node.visit c = 0 :=
    fun c hc => (expansion_counts hc).1
  have hsel : selection (root0 G order state) = [0] :=
    selection_all_zero hne hzero
  -- the state after the first iteration
  have hstep : ∃ c1 : Node G,
      (Node.child (simStep G p (root0 G order state)))[0]? = some c1 ∧
        0 < Node.visit c1 := by
    cases hch : Node.child (root0 G order state) with
    | nil => exact absurd hch hne
    | cons c0 rest =>
      refine ⟨updatePath (if oneSim G p
          (nodeAt (root0 G order state) (selection (root0 G order state)))
          then 1 else 0) [] c0, ?_, by simp⟩
      unfold simStep
      rw [hsel, updatePath_child_cons, getElem?_updateAt, if_pos rfl, hch]
      simp
  obtain ⟨c1, hc1, hpos⟩ := hstep
  have hflat1 : Flat (simStep G p (root0 G order state)) := simStep_flat hflat
  obtain ⟨_, _, _, hch⟩ :=
    simLoop_stepInv p k' (simStep G p (root0 G order state)) hflat1
  obtain ⟨c', hc', _, _, _, hv⟩ := hch 0 c1 hc1
  exact ⟨c', hc', lt_of_lt_of_le hpos hv⟩

/-! ### The `winCount ≤ visitCount` invariant -/

/-- `winCount ≤ visitCount` holds at this node and at every descendant. -/
def WinLe : Node G → Prop
  | Node.mk v w _b _mv cs => w ≤ v ∧ ∀ c, c ∈ cs → WinLe c
termination_by n => sizeOf n
decreasing_by
  rename_i hc
  have hs := List.sizeOf_lt_of_mem hc
  simp only [Node.mk.sizeOf_spec] at hs ⊢
  omega

theorem winLe_mk (v w : ℕ) (b : G.B) (mv : Option G.M) (cs : List (Node G)) :
    WinLe (Node.mk v w b mv cs) ↔ w ≤ v ∧ ∀ c, c ∈ cs → WinLe c := by
  rw [WinLe]

theorem winLe_root0 (order : List G.M) (state : G.B) :
    WinLe (root0 G order state) := by
  rw [root0, winLe_mk]
  refine ⟨le_refl 0, ?_⟩
  intro c hc
  rcases mem_expansion hc with ⟨m, after, _, _, rfl⟩
  rw [winLe_mk]
  exact ⟨le_refl 0, by simp⟩

theorem updatePath_winLe {w : ℕ} (hw : w ≤ 1) :
    ∀ (path : List ℕ) (n : Node G), WinLe n → WinLe (updatePath w path n) := by
  intro path
  induction path with
  | nil =>
    intro n hn
    cases n with
    | mk v wi b mv cs =>
      rw [winLe_mk] at hn
      rw [updatePath, winLe_mk]
      exact ⟨by omega, hn.2⟩
  | cons i p' ih =>
    intro n hn
    cases n with
    | mk v wi b mv cs =>
      rw [winLe_mk] at hn
      rw [updatePath, winLe_mk]
      refine ⟨by omega, ?_⟩
      intro c hc
      rcases mem_updateAt hc with hmem | ⟨a, ha, rfl⟩
      · exact hn.2 c hmem
      · exact ih a (hn.2 a ha)

theorem simLoop_winLe (p : Player G) (k : ℕ) :
    ∀ R : Node G, WinLe R → WinLe (simLoop G p k R) := by
  induction k with
  | zero => intro R h; exact h
  | succ k' ih =>
    intro R h
    refine ih (simStep G p R) ?_
    unfold simStep
    exact updatePath_winLe (by split <;> omega) _ R h

/-! ### The rollout loop as an alternating chain of moves -/

/-- The spec's declarative reading of one rollout step: at step `j` the
mover is the opponent's agent when `j` is even (the opponent moves first)
and the searching player's agent when `j` is odd, each on its own `j / 2`-th
call; the step produces the next board, or `none` when the attempted move
is illegal or the mover has no move. -/
def stepPolicy (G : Game) (p : Player G) (j : ℕ) (b : G.B) : Option G.B :=
  (if j % 2 = 1 then myPolicy G p (j / 2) b else oppPolicy G p (j / 2) b).bind
    (fun m => G.apply m b)

/-- The sequence of boards reached by the alternating rollout from `b0`:
`chain j` is the board after `j` successful steps, `none` once a step has
failed. -/
def chain (G : Game) (p : Player G) (b0 : G.B) : ℕ → Option G.B
  | 0 => some b0
  | j + 1 =>
    match chain G p b0 j with
    | none => none
    | some b' => stepPolicy G p j b'

/-- The imperative rollout loop agrees, after `j` successful steps, with
the state `(kMy, kOpp, MYTURN) = (j / 2, (j + 1) / 2, j odd)`. -/
theorem oneSimAux_align (p : Player G) (b0 : G.B) :
    ∀ (j : ℕ) (b : G.B), chain G p b0 j = some b →
      oneSimAux G (myPolicy G p) (oppPolicy G p) 0 0 false b0 =
        oneSimAux G (myPolicy G p) (oppPolicy G p) (j / 2) ((j + 1) / 2)
          (decide (j % 2 = 1)) b := by
  intro j
  induction j with
  | zero =>
    intro b hb
    simp only [chain, Option.some.injEq] at hb
    subst hb
    norm_num
  | succ j ih =>
    intro b hb
    rw [chain] at hb
    cases hc : chain G p b0 j with
    | none => rw [hc] at hb; exact absurd hb (by simp)
    | some b' =>
      rw [hc] at hb
      rw [ih b' hc]
      simp only [stepPolicy] at hb
      by_cases hpar : j % 2 = 1
      · have hd : decide (j % 2 = 1) = true := by simp [hpar]
        have hb' : (myPolicy G p (j / 2) b').bind
            (fun m => G.apply m b') = some b := by
          simpa [hpar] using hb
        rw [oneSimAux]
        split
        · rename_i hnone
          rw [if_pos hd] at hnone
          rw [hb'] at hnone
          exact absurd hnone (by simp)
        · rename_i s' hsome
          rw [if_pos hd] at hsome
          rw [hb'] at hsome
          injection hsome with hs
          subst hs
          rw [hd]
          have e1 : j / 2 + 1 = (j + 1) / 2 := by omega
          have e2 : (j + 1 + 1) / 2 = (j + 1) / 2 := by omega
          have e3 : (j + 1) % 2 = 0 := by omega
          rw [e2, e3]
          simp [e1]
      · have hd : decide (j % 2 = 1) = false := by simp [hpar]
        have heq : (j + 1) / 2 = j / 2 := by omega
        have hb' : (oppPolicy G p ((j + 1) / 2) b').bind
            (fun m => G.apply m b') = some b := by
          rw [heq]
          simpa [hpar] using hb
        rw [oneSimAux]
        split
        · rename_i hnone
          rw [if_neg (by simp [hd])] at hnone
          rw [hb'] at hnone
          exact absurd hnone (by simp)
        · rename_i s' hsome
          rw [if_neg (by simp [hd])] at hsome
          rw [hb'] at hsome
          injection hsome with hs
          subst hs
          rw [hd]
          have e1 : (j + 1 + 1) / 2 = j / 2 + 1 := by omega
          have e3 : (j + 1) % 2 = 1 := by omega
          rw [e3]
          simp [heq, e1]

/-- Each successful rollout step strictly decreases the termination
measure. -/
theorem chain_bnd (p : Player G) (b0 : G.B) :
    ∀ (j : ℕ) (b : G.B), chain G p b0 j = some b →
      G.bnd b + j ≤ G.bnd b0 := by
  intro j
  induction j with
  | zero =>
    intro b hb
    simp only [chain, Option.some.injEq] at hb
    subst hb
    omega
  | succ j ih =>
    intro b hb
    rw [chain] at hb
    cases hc : chain G p b0 j with
    | none => rw [hc] at hb; exact absurd hb (by simp)
    | some b' =>
      rw [hc] at hb
      obtain ⟨m, _, ha⟩ := Option.bind_eq_some.mp hb
      have hlt := G.bnd_lt m b' b ha
      have := ih b' hc
      omega

/-- The rollout always terminates: some step is the first illegal one. -/
theorem chain_terminates (p : Player G) (b0 : G.B) :
    ∃ (j : ℕ) (b : G.B), chain G p b0 j = some b ∧
      stepPolicy G p j b = none := by
  by_contra hcon
  push_neg at hcon
  have hall : ∀ j : ℕ, ∃ b : G.B, chain G p b0 j = some b := by
    intro j
    induction j with
    | zero => exact ⟨b0, rfl⟩
    | succ j ih =>
      obtain ⟨b, hb⟩ := ih
      have hne := hcon j b hb
      cases hs : stepPolicy G p j b with
      | none => exact absurd hs hne
      | some b'' =>
        refine ⟨b'', ?_⟩
        rw [chain, hb]
        exact hs
  obtain ⟨b, hb⟩ := hall (G.bnd b0 + 1)
  have := chain_bnd p b0 (G.bnd b0 + 1) b hb
  omega

/-- The outcome of `oneSim`: if the rollout's first illegal step is step
`j`, the result is `true` exactly when `j` is even, i.e. when the agent
that failed to move was the opponent's. -/
theorem oneSim_outcome (p : Player G) (node : Node G) (j : ℕ) (b' : G.B)
    (hc : chain G p (Node.b node) j = some b')
    (hstop : stepPolicy G p j b' = none) :
    oneSim G p node = decide (j % 2 = 0) := by
  rw [oneSim, oneSimAux_align p (Node.b node) j b' hc]
  simp only [stepPolicy] at hstop
  by_cases hpar : j % 2 = 1
  · have hd : decide (j % 2 = 1) = true := by simp [hpar]
    have hstop' : (myPolicy G p (j / 2) b').bind
        (fun m => G.apply m b') = none := by
      simpa [hpar] using hstop
    rw [oneSimAux]
    split
    · rename_i hnone
      rw [hd]
      have hne0 : ¬ j % 2 = 0 := by omega
      simp [hne0]
    · rename_i s' hsome
      rw [if_pos hd] at hsome
      rw [hstop'] at hsome
      exact absurd hsome (by simp)
  · have hd : decide (j % 2 = 1) = false := by simp [hpar]
    have heq : (j + 1) / 2 = j / 2 := by omega
    have hstop' : (oppPolicy G p ((j + 1) / 2) b').bind
        (fun m => G.apply m b') = none := by
      rw [heq]
      simpa [hpar] using hstop
    rw [oneSimAux]
    split
    · rename_i hnone
      rw [hd]
      have h0 : j % 2 = 0 := by omega
      simp [h0]
    · rename_i s' hsome
      rw [if_neg (by simp [hd])] at hsome
      rw [hstop'] at hsome
      exact absurd hsome (by simp)

/-! ### Positivity of every divisor evaluated by `selection` -/

theorem selLoopDivs_pos :
    ∀ (cs : List (Node G)) (d : ℕ), d ∈ selLoopDivs cs → 0 < d := by
  intro cs
  induction cs with
  | nil => intro d hd; simp [selLoopDivs] at hd
  | cons c rest ih =>
    intro d hd
    by_cases h0 : Node.visit c = 0
    · simp [selLoopDivs, h0] at hd
    · rw [selLoopDivs, if_neg h0] at hd
      rcases List.mem_cons.mp hd with rfl | hd'
      · omega
      · rcases List.mem_cons.mp hd' with rfl | hd''
        · omega
        · exact ih d hd''

theorem selectionDivs_pos :
    ∀ (N : ℕ) (n : Node G), sizeOf n ≤ N →
      ∀ d : ℕ, d ∈ selectionDivs n → 0 < d := by
  intro N
  induction N with
  | zero =>
    intro n hN
    cases n with
    | mk v w b mv cs =>
      simp only [Node.mk.sizeOf_spec] at hN
      exact absurd hN (by omega)
  | succ N ih =>
    intro n hN d hd
    cases n with
    | mk v w b mv cs =>
      cases cs with
      | nil => rw [selectionDivs] at hd; simp at hd
      | cons c1 rest =>
        rw [selectionDivs] at hd
        rcases List.mem_append.mp hd with hd1 | hd2
        · exact selLoopDivs_pos (c1 :: rest) d hd1
        · split at hd2
          · simp at hd2
          · simp at hd2
          · split at hd2
            · simp at hd2
            · rename_i c hget
              have hmem : c ∈ c1 :: rest := by
                obtain ⟨hlt, he⟩ := List.getElem?_eq_some.mp hget
                exact he ▸ List.getElem_mem hlt
              have hsz : sizeOf c ≤ N := by
                have hs := List.sizeOf_lt_of_mem hmem
                simp only [Node.mk.sizeOf_spec, List.cons.sizeOf_spec] at hs hN
                omega
              exact ih c hsz d hd2

theorem simLoopDivs_pos (p : Player G) :
    ∀ (k : ℕ) (R : Node G) (d : ℕ), d ∈ simLoopDivs G p k R → 0 < d := by
  intro k
  induction k with
  | zero => intro R d hd; simp [simLoopDivs] at hd
  | succ k ih =>
    intro R d hd
    rw [simLoopDivs] at hd
    rcases List.mem_append.mp hd with hd1 | hd2
    · exact selectionDivs_pos (sizeOf R) R (le_refl _) d hd1
    · exact ih (simStep G p R) d hd2

/-- Expansion produces no children exactly when no candidate is legal. -/
theorem expansion_eq_nil {order : List G.M} {state : G.B}
    (h : ∀ m ∈ order, G.apply m state = none) :
    expansion G order state = [] := by
  rw [expansion, List.filterMap_eq_nil_iff]
  intro m hm
  rw [h m hm]
  rfl

theorem expansion_ne_nil {order : List G.M} {state : G.B}
    (h : ∃ m ∈ order, G.apply m state ≠ none) :
    expansion G order state ≠ [] := by
  obtain ⟨m, hm, hne⟩ := h
  cases ha : G.apply m state with
  | none => exact absurd ha hne
  | some after =>
    have hmem : Node.mk 0 0 after (some m) [] ∈ expansion G order state := by
      rw [expansion]
      exact List.mem_filterMap.mpr ⟨m, hm, by rw [ha]; rfl⟩
    exact List.ne_nil_of_mem hmem

theorem Simulation_of_empty (p : Player G) (order : List G.M) (state : G.B)
    (h : expansion G order state = []) :
    Simulation G p order state = none := by
  rw [Simulation]
  simp [root0, h]

theorem Simulation_decision (p : Player G) (order : List G.M) (state : G.B)
    (c0 : Node G) (rest : List (Node G))
    (hne : expansion G order state ≠ [])
    (hch : Node.child (simLoop G p sim_counts (root0 G order state)) =
      c0 :: rest) :
    Simulation G p order state =
      decisionLoop (c0 :: rest) (winRate c0) (Node.move c0) := by
  rw [Simulation]
  have hie : (Node.child (root0 G order state)).isEmpty = false := by
    rw [root0, Node.child_mk]
    cases hexp : expansion G order state with
    | nil => exact absurd hexp hne
    | cons e0 erest => rfl
  simp only [hie, Bool.false_eq_true, if_false, hch]

/-! ### The claims -/

/-- C3: in selection at a node with children, a child with
`visitCount == 0` is selected immediately (the first such child in list
order, before any score comparison); otherwise each child's score is
`winCount/visitCount + sqrt(2 * ln(parent.visitCount) / child.visitCount)`
and descent continues into the child with the maximum score (ties broken
by the earliest position), until a node with no children is reached.  The
all-visited case is stated under `0 < parent.visitCount`, the only
situation reachable in a run (at `parent.visitCount = 0` the C code would
evaluate `log(0)`). -/
theorem C3_selection_policy (n : Node G) :
    (Node.child n = [] → selection n = []) ∧
    ((∃ c ∈ Node.child n, Node.visit c = 0) →
      selection n = [(Node.child n).findIdx (fun c => Node.visit c == 0)]) ∧
    (Node.child n ≠ [] → 0 < Node.visit n →
      (∀ c ∈ Node.child n, Node.visit c ≠ 0) →
      ∃ (j : ℕ) (c : Node G), (Node.child n)[j]? = some c ∧
        selection n = j :: selection c ∧
        (∀ l, l < j →
          uctAt (Node.visit n) (Node.child n) l <
            uctAt (Node.visit n) (Node.child n) j) ∧
        (∀ l, l < (Node.child n).length →
          uctAt (Node.visit n) (Node.child n) l ≤
            uctAt (Node.visit n) (Node.child n) j)) := by
  refine ⟨fun h => selection_child_nil h, fun hex => selection_unvisited hex, ?_⟩
  intro hne _hv hall
  exact selection_allvisited hne hall

/-- Witness for C3: on a node whose second child is unvisited, selection
returns that child's index at once. -/
theorem C3_selection_policy_witness :
    selection (Node.mk 1 0 (0 : ℕ) none
      [Node.mk 1 1 0 none [], Node.mk 0 0 0 none ([] : List (Node toyGame))])
      = [1] := by
  have h := (C3_selection_policy (Node.mk 1 0 (0 : ℕ) none
    [Node.mk 1 1 0 none [], Node.mk 0 0 0 none
      ([] : List (Node toyGame))])).2.1 (by decide)
  rw [h]
  rfl

/-- C5: backpropagation walks from the selected node through every parent
link up to and including the root, incrementing `visitCount` by 1 on every
node of the walk and `winCount` by 1 exactly when the outcome was a win
(first conjunct, with parent links modelled as path positions); running
exactly `K` iterations from the freshly expanded root leaves the root with
`visitCount = K` (second conjunct). -/
theorem C5_backprop_counts :
    (∀ (n : Node G) (path : List ℕ) (win : Bool),
      validPath n path = true → ∀ k, k ≤ path.length →
        Node.visit (nodeAt (updatePath (if win then 1 else 0) path n)
            (List.take k path)) =
          Node.visit (nodeAt n (List.take k path)) + 1 ∧
        Node.win (nodeAt (updatePath (if win then 1 else 0) path n)
            (List.take k path)) =
          Node.win (nodeAt n (List.take k path)) +
            (if win then 1 else 0)) ∧
    (∀ (p : Player G) (order : List G.M) (state : G.B) (K : ℕ),
      Node.visit (simLoop G p K (root0 G order state)) = K) := by
  constructor
  · intro n path win hv k hk
    exact updatePath_nodeAt (if win then 1 else 0) path n hv k hk
  · intro p order state K
    rw [simLoop_visit]
    rw [root0, Node.visit_mk]
    omega

/-- Witness for C5: a concrete backpropagation along the path `[0]` adds
one visit and one win to the selected child. -/
theorem C5_backprop_counts_witness :
    Node.visit (nodeAt (updatePath 1 [0]
        (Node.mk 0 0 (2 : ℕ) none
          [Node.mk 0 0 1 (some 0) ([] : List (Node toyGame))])) [0]) =
      Node.visit (nodeAt (Node.mk 0 0 (2 : ℕ) none
        [Node.mk 0 0 1 (some 0) ([] : List (Node toyGame))]) [0]) + 1 := by
  have h := (C5_backprop_counts (G := toyGame)).1
    (Node.mk 0 0 (2 : ℕ) none
      [Node.mk 0 0 1 (some 0) ([] : List (Node toyGame))])
    [0] true (by decide) 1 (by norm_num)
  simpa using h.1

/-- C6: for every node of the search tree, `winCount ≤ visitCount` holds at
every point of a move request: after any number `k` of loop iterations the
whole tree (root and all descendants) satisfies the bound, nodes being
created with both counts zero and every backpropagation step adding `1` to
`visitCount` and at most `1` to `winCount` on the same nodes. -/
theorem C6_win_le_visit (p : Player G) (order : List G.M) (state : G.B)
    (k : ℕ) : WinLe (simLoop G p k (root0 G order state)) :=
  simLoop_winLe p k (root0 G order state) (winLe_root0 order state)

/-- C8: on a board state where the searching player has zero legal moves,
root expansion yields no children and `take_action` returns the no-op
sentinel `action()` (modelled `none`), terminating at once. -/
theorem C8_no_legal_moves (p : Player G) (order : List G.M) (state : G.B)
    (h : ∀ m ∈ order, G.apply m state = none) :
    expansion G order state = [] ∧ take_action G p order state = none := by
  have he := expansion_eq_nil h
  refine ⟨he, ?_⟩
  rw [take_action]
  exact Simulation_of_empty p order state he

/-- Witness for C8: the toy board `0` has no legal move and yields the
no-op action. -/
theorem C8_no_legal_moves_witness :
    expansion toyGame [0] 0 = [] ∧ take_action toyGame toyPlayer [0] 0 = none :=
  C8_no_legal_moves toyPlayer [0] 0 (by decide)

/-- C4: every rollout alternates the two independent per-colour agents
with the opponent moving first (the declarative `chain` / `stepPolicy`
description: the mover at step `j` is the opponent's agent for even `j`
and the searching player's agent for odd `j`, each on its own `j / 2`-th
call); a first illegal step always exists, and the recorded outcome is a
win for the searching player exactly when the side that failed to move was
the opponent, i.e. the turn-flag at termination was not the searching
player's (`j` even). -/
theorem C4_rollout_alternation (p : Player G) (node : Node G) :
    (∃ (j : ℕ) (b' : G.B), chain G p (Node.b node) j = some b' ∧
      stepPolicy G p j b' = none) ∧
    (∀ (j : ℕ) (b' : G.B), chain G p (Node.b node) j = some b' →
      stepPolicy G p j b' = none →
      (oneSim G p node = true ↔ j % 2 = 0)) := by
  refine ⟨chain_terminates p (Node.b node), ?_⟩
  intro j b' hc hstop
  rw [oneSim_outcome p node j b' hc hstop]
  simp

/-- Witness for C4: from the toy board `2` the rollout plays two legal
moves (opponent, then the searching player), the opponent fails on step 2
(even), so the outcome is a win. -/
theorem C4_rollout_alternation_witness :
    oneSim toyGame toyPlayer (Node.mk 0 0 (2 : ℕ) none []) = true := by
  have h := (C4_rollout_alternation toyPlayer
    (Node.mk 0 0 (2 : ℕ) none ([] : List (Node toyGame)))).2 2 0 (by rfl) (by rfl)
  exact h.mpr (by norm_num)

/-- C10: the two rollout agents constructed by `oneSim` have configuration
strings without a `seed` key, so their engines stay default-constructed;
consequently the rollout outcome is a deterministic function of the node's
board alone, identical across simulations and runs and independent of the
seed configured on the MCTS agent. -/
theorem C10_rollout_seed_independent :
    engineOf blackArgs = none ∧ engineOf whiteArgs = none ∧
    (∀ (G : Game) (p q : Player G), p.who = q.who →
      ∀ node : Node G, oneSim G p node = oneSim G q node) ∧
    (∀ (G : Game) (p : Player G) (n n' : Node G), Node.b n = Node.b n' →
      oneSim G p n = oneSim G p n') := by
  refine ⟨by decide, by decide, ?_, ?_⟩
  · intro G p q hwho node
    cases p with
    | mk pwho pseed =>
      cases q with
      | mk qwho qseed =>
        simp only at hwho
        subst hwho
        cases pwho <;> rfl
  · intro G p n n' hb
    rw [oneSim, oneSim, hb]

/-- Witness for C10: the unseeded and the seeded toy player produce the
same rollout outcome on the same node. -/
theorem C10_rollout_seed_independent_witness :
    oneSim toyGame toyPlayer (Node.mk 0 0 (3 : ℕ) none []) =
      oneSim toyGame toyPlayerSeeded (Node.mk 0 0 (3 : ℕ) none []) :=
  C10_rollout_seed_independent.2.2.1 toyGame toyPlayer toyPlayerSeeded rfl
    (Node.mk 0 0 (3 : ℕ) none ([] : List (Node toyGame)))

/-- C9: throughout every move request the search tree is exactly the root
and its direct children: after any number of iterations every root child
has an empty child list (no node at depth 2 or greater is ever created),
and whenever the root has children the node selected for simulation and
backpropagation is a direct child of the root. -/
theorem C9_tree_depth_one (p : Player G) (order : List G.M) (state : G.B)
    (k : ℕ) :
    (∀ (j : ℕ) (c : Node G),
      (Node.child (simLoop G p k (root0 G order state)))[j]? = some c →
      Node.child c = []) ∧
    (Node.child (root0 G order state) ≠ [] →
      ∃ (j : ℕ) (c : Node G),
        (Node.child (simLoop G p k (root0 G order state)))[j]? = some c ∧
        selection (simLoop G p k (root0 G order state)) = [j]) := by
  have hflat0 := flat_root0 (G := G) order state
  have hflatk := simLoop_flat p k (root0 G order state) hflat0
  constructor
  · intro j c hc
    obtain ⟨hlt, he⟩ := List.getElem?_eq_some.mp hc
    exact hflatk c (he ▸ List.getElem_mem hlt)
  · intro hne
    obtain ⟨_, _, hlen, _⟩ := simLoop_stepInv p k (root0 G order state) hflat0
    have hnek : Node.child (simLoop G p k (root0 G order state)) ≠ [] := by
      intro h
      rw [h] at hlen
      exact hne (List.length_eq_zero.mp hlen.symm)
    rcases selection_flat hflatk with ⟨hemp, _⟩ | ⟨j, c, hget, hsel⟩
    · exact absurd hemp hnek
    · exact ⟨j, c, hget, hsel⟩

/-- Witness for C9: at iteration 0 of the toy run from board 2, the
selected node is a direct child of the root. -/
theorem C9_tree_depth_one_witness :
    ∃ (j : ℕ) (c : Node toyGame),
      (Node.child (simLoop toyGame toyPlayer 0 (root0 toyGame [0, 1] 2)))[j]? =
        some c ∧
      selection (simLoop toyGame toyPlayer 0 (root0 toyGame [0, 1] 2)) = [j] :=
  (C9_tree_depth_one toyPlayer [0, 1] 2 0).2 (by
    rw [show Node.child (root0 toyGame [0, 1] 2) =
      [Node.mk 0 0 1 (some 0) [], Node.mk 0 0 1 (some 1) []] from rfl]
    exact List.cons_ne_nil _ _)

/-- C1 counterexample: in the toy game from board `2` with candidate order
`[0, 1]`, iteration 1 selects root child 0, a leaf that has never been
expanded and is non-terminal (its board still has a legal move); after the
iteration in which it was first selected — and still after the whole
100-iteration loop — it has no children, so the claimed expand-on-demand
step never happens (it is commented out in `MCTS_player::Simulation`). -/
theorem C1_counterexample :
    selection (root0 toyGame [0, 1] 2) = [0] ∧
    Node.child (nodeAt (root0 toyGame [0, 1] 2) [0]) = [] ∧
    (∃ m : ℕ,
      toyGame.apply m (Node.b (nodeAt (root0 toyGame [0, 1] 2) [0])) ≠ none) ∧
    Node.child (nodeAt (simStep toyGame toyPlayer (root0 toyGame [0, 1] 2))
      [0]) = [] ∧
    Node.child (nodeAt (simLoop toyGame toyPlayer sim_counts
      (root0 toyGame [0, 1] 2)) [0]) = [] := by
  have hch : Node.child (root0 toyGame [0, 1] 2) =
      [Node.mk 0 0 1 (some 0) [], Node.mk 0 0 1 (some 1) []] := rfl
  have hne : Node.child (root0 toyGame [0, 1] 2) ≠ [] := by
    rw [hch]
    exact List.cons_ne_nil _ _
  have hzero : ∀ c ∈ Node.child (root0 toyGame [0, 1] 2), Node.visit c = 0 :=
    fun c hc => (expansion_counts hc).1
  have hsel : selection (root0 toyGame [0, 1] 2) = [0] :=
    selection_all_zero hne hzero
  refine ⟨hsel, rfl, ⟨0, by decide⟩, ?_, ?_⟩
  · rw [simStep]
    rw [hsel]
    rw [show nodeAt (updatePath (if oneSim toyGame toyPlayer
        (nodeAt (root0 toyGame [0, 1] 2) [0]) then 1 else 0) [0]
        (root0 toyGame [0, 1] 2)) [0] =
      updatePath (if oneSim toyGame toyPlayer
        (nodeAt (root0 toyGame [0, 1] 2) [0]) then 1 else 0) []
        (Node.mk 0 0 1 (some 0) []) from by
      rw [nodeAt, updatePath_child_cons, hch]
      rfl]
    rw [updatePath_child_nil]
    rfl
  · obtain ⟨_, _, _, hchinv⟩ := simLoop_stepInv toyPlayer sim_counts
      (root0 toyGame [0, 1] 2) (flat_root0 [0, 1] 2)
    have hget0 : (Node.child (root0 toyGame [0, 1] 2))[0]? =
        some (Node.mk 0 0 1 (some 0) []) := by
      rw [hch]
      rfl
    obtain ⟨c', hc', _, _, hch', _⟩ := hchinv 0 _ hget0
    rw [show nodeAt (simLoop toyGame toyPlayer sim_counts
        (root0 toyGame [0, 1] 2)) [0] = c' from by rw [nodeAt, hc']; rfl]
    rw [hch']
    rfl

/-- C1 (amended): during the iteration loop no selected node is ever
expanded: expansion is invoked exactly once, on the root, before the loop
(first conjunct), and after any number of iterations every root child — in
particular every node selected for simulation — still has an empty child
list (second conjunct). -/
theorem C1_expansion_only_at_root (p : Player G) (order : List G.M)
    (state : G.B) :
    Node.child (root0 G order state) = expansion G order state ∧
    ∀ (k j : ℕ) (c : Node G),
      (Node.child (simLoop G p k (root0 G order state)))[j]? = some c →
      Node.child c = [] := by
  refine ⟨rfl, ?_⟩
  intro k j c hc
  have hflatk := simLoop_flat p k (root0 G order state) (flat_root0 order state)
  obtain ⟨hlt, he⟩ := List.getElem?_eq_some.mp hc
  exact hflatk c (he ▸ List.getElem_mem hlt)

/-- Witness for the amended C1: at iteration 0 of the toy run, root child 0
exists and has no children. -/
theorem C1_expansion_only_at_root_witness :
    Node.child (Node.mk 0 0 (1 : ℕ) (some 0) ([] : List (Node toyGame))) = [] :=
  (C1_expansion_only_at_root toyPlayer [0, 1] 2).2 0 0
    (Node.mk 0 0 (1 : ℕ) (some 0) ([] : List (Node toyGame)))
    (by rw [show simLoop toyGame toyPlayer 0 (root0 toyGame [0, 1] 2) =
          root0 toyGame [0, 1] 2 from by rw [simLoop]]
        rfl)

/-- Positivity of the divisors of the decision step, given that the final
tree's child 0 has been visited. -/
theorem decisionDivs_pos {R : Node G}
    (h0 : ∀ c : Node G, (Node.child R)[0]? = some c → 0 < Node.visit c) :
    ∀ d ∈ decisionDivs R, 0 < d := by
  intro d hd
  rw [decisionDivs] at hd
  cases hfc : Node.child R with
  | nil => rw [hfc] at hd; simp at hd
  | cons c0 rest =>
    rw [hfc] at hd
    simp only [List.mem_cons] at hd
    rcases hd with rfl | hmem
    · exact h0 c0 (by rw [hfc]; simp)
    · rcases List.mem_filterMap.mp hmem with ⟨c, _, hif⟩
      by_cases hv : Node.visit c = 0
      · rw [if_pos hv] at hif
        exact absurd hif (by simp)
      · rw [if_neg hv] at hif
        injection hif with hdv
        omega

/-- Every child of the tree, after any number of iterations, carries the
originating move that produced its board from the input state, and that
move is legal on the input state. -/
theorem final_child_legal (p : Player G) (order : List G.M) (state : G.B)
    (k : ℕ) :
    ∀ (l : ℕ) (c' : Node G),
      (Node.child (simLoop G p k (root0 G order state)))[l]? = some c' →
      ∃ m : G.M, Node.move c' = some m ∧ G.apply m state = some (Node.b c') := by
  intro l c' hc'
  obtain ⟨_, _, hlen, hchinv⟩ :=
    simLoop_stepInv p k (root0 G order state) (flat_root0 order state)
  have hlt : l < (Node.child (simLoop G p k (root0 G order state))).length :=
    (List.getElem?_eq_some.mp hc').1
  have hlt0 : l < (Node.child (root0 G order state)).length := by omega
  obtain ⟨c'', hc'', hm', hb', _, _⟩ := hchinv l
    ((Node.child (root0 G order state)).get ⟨l, hlt0⟩)
    (by simp [List.getElem?_eq_getElem hlt0])
  rw [hc'] at hc''
  injection hc'' with hcc
  subst hcc
  have hmem : (Node.child (root0 G order state)).get ⟨l, hlt0⟩ ∈
      expansion G order state := List.getElem_mem hlt0
  rcases mem_expansion hmem with ⟨m, after, _, ha, heq⟩
  refine ⟨m, ?_, ?_⟩
  · rw [hm', heq]
    rfl
  · rw [hb', heq, ha]
    rfl

/-- C7: every division by a `visitCount` performed during `take_action` —
the two divisions of each UCT score evaluation inside `selection`, the
initial `child[0]` win-rate division of the decision step, and the
win-rate division of every non-skipped child — has a strictly positive
divisor (`SimulationDivs` instruments all these evaluation sites). -/
theorem C7_divisors_pos (p : Player G) (order : List G.M) (state : G.B) :
    List.Forall (fun d => 0 < d) (SimulationDivs G p order state) := by
  rw [List.forall_iff_forall_mem]
  intro d hd
  simp only [SimulationDivs] at hd
  by_cases he : (Node.child (root0 G order state)).isEmpty = true
  · rw [if_pos he] at hd
    simp at hd
  · rw [if_neg he] at hd
    rcases List.mem_append.mp hd with hd1 | hd2
    · exact simLoopDivs_pos p sim_counts (root0 G order state) d hd1
    · refine decisionDivs_pos ?_ d hd2
      intro c hc
      have hne : Node.child (root0 G order state) ≠ [] := by
        intro hnil
        exact he (by rw [hnil]; rfl)
      obtain ⟨c', hc', hpos⟩ :=
        simLoop_child0_pos p order state hne sim_counts (by decide)
      rw [hc'] at hc
      injection hc with hcc
      exact hcc ▸ hpos

/-- C2: for every board state with at least one legal move for the
searching player, `take_action` (budget `sim_counts = 100`) returns the
`originatingMove` of a root child that has been visited and that, among
visited children, maximises `winCount/visitCount` with ties resolved to
the first child in iteration order (children with `visitCount == 0`
ignored); the returned action is the originating move of one of the
expanded children and is legal when reapplied to the input state. -/
theorem C2_take_action_argmax (p : Player G) (order : List G.M) (state : G.B)
    (h : ∃ m ∈ order, G.apply m state ≠ none) :
    ∃ (j : ℕ) (c : Node G),
      (Node.child (simLoop G p sim_counts (root0 G order state)))[j]? =
        some c ∧
      0 < Node.visit c ∧
      take_action G p order state = Node.move c ∧
      (∀ c' ∈ Node.child (simLoop G p sim_counts (root0 G order state)),
        0 < Node.visit c' → winRate c' ≤ winRate c) ∧
      (∀ l, l < j → ∀ c' : Node G,
        (Node.child (simLoop G p sim_counts (root0 G order state)))[l]? =
          some c' → 0 < Node.visit c' → winRate c' < winRate c) ∧
      (∃ m : G.M, Node.move c = some m ∧ G.apply m state ≠ none) := by
  have hne : expansion G order state ≠ [] := expansion_ne_nil h
  have hne0 : Node.child (root0 G order state) ≠ [] := by
    rw [root0, Node.child_mk]
    exact hne
  obtain ⟨cpos, hgot0, hpos⟩ :=
    simLoop_child0_pos p order state hne0 sim_counts (by decide)
  cases hfc : Node.child (simLoop G p sim_counts (root0 G order state)) with
  | nil => rw [hfc] at hgot0; exact absurd hgot0 (by simp)
  | cons c0 rest =>
    have hpos0 : 0 < Node.visit c0 := by
      rw [hfc] at hgot0
      simp only [List.getElem?_cons_zero, Option.some.injEq] at hgot0
      exact hgot0 ▸ hpos
    have hSim : Simulation G p order state =
        decisionLoop (c0 :: rest) (winRate c0) (Node.move c0) :=
      Simulation_decision p order state c0 rest hne hfc
    have hlegal : ∀ (l : ℕ) (c' : Node G),
        (c0 :: rest)[l]? = some c' →
        ∃ m : G.M, Node.move c' = some m ∧ G.apply m state ≠ none := by
      intro l c' hc'
      obtain ⟨m, hm, ha⟩ := final_child_legal p order state sim_counts l c'
        (by rw [hfc]; exact hc')
      exact ⟨m, hm, by rw [ha]; exact fun hx => by simp at hx⟩
    rcases decisionLoop_char (c0 :: rest) (winRate c0) (Node.move c0) with
      ⟨hres, hbnd⟩ | ⟨j, c, hget, hv, hres, _hbv, hpre, hmax⟩
    · refine ⟨0, c0, by simp, hpos0, ?_, ?_, ?_, ?_⟩
      · rw [take_action, hSim, hres]
      · intro c' hc' hvpos
        exact hbnd c' hc' (by omega)
      · intro l hl
        omega
      · exact hlegal 0 c0 (by simp)
    · refine ⟨j, c, hget, by omega, ?_, ?_, ?_, ?_⟩
      · rw [take_action, hSim, hres]
      · intro c' hc' hvpos
        exact hmax c' hc' (by omega)
      · intro l hl c' hc' hvpos
        exact hpre l hl c' hc' (by omega)
      · exact hlegal j c hget

/-- Witness for C2: the toy board `1` with the single candidate `0` has a
legal move, so the decision property holds there. -/
theorem C2_take_action_argmax_witness :
    ∃ (j : ℕ) (c : Node toyGame),
      (Node.child (simLoop toyGame toyPlayer sim_counts
        (root0 toyGame [0] 1)))[j]? = some c ∧
      0 < Node.visit c ∧
      take_action toyGame toyPlayer [0] 1 = Node.move c ∧
      (∀ c' ∈ Node.child (simLoop toyGame toyPlayer sim_counts
        (root0 toyGame [0] 1)),
        0 < Node.visit c' → winRate c' ≤ winRate c) ∧
      (∀ l, l < j → ∀ c' : Node toyGame,
        (Node.child (simLoop toyGame toyPlayer sim_counts
          (root0 toyGame [0] 1)))[l]? = some c' →
        0 < Node.visit c' → winRate c' < winRate c) ∧
      (∃ m : ℕ, Node.move c = some m ∧ toyGame.apply m 1 ≠ none) :=
  C2_take_action_argmax toyPlayer [0] 1 ⟨0, by decide⟩

end NoGoMCTS
